import Mathlib

/-!
A shallow embedding of the DQN training core in `agent/dqn_agent.py`:
the replay buffer, epsilon-greedy action selection, the TD-target
computation inside `optimizeModel`, the per-step body of
`trainOneEpisode`, and the checkpoint save/load cycle.  Rewards and
Q-values are modelled as rationals, tensors as lists, and the PyTorch
collaborators (model forward, optimizer step, RNG draws) as explicit
function fields or inputs.
-/

/-- One stored experience, mirroring
`Transition = namedtuple('Transition', ('state', 'action', 'next_state', 'reward'))`.
`next_state = none` marks a terminal transition. -/
structure Transition where
  state : ℕ
  action : ℕ
  next_state : Option ℕ
  reward : ℚ
deriving DecidableEq, Repr, Inhabited

/-- `ReplayMemory.__init__`: a capacity, a growable backing list, and a wrapping
write cursor.  Entries are `Option` values because `push` first appends a `None`
placeholder (line 36 of the source) before overwriting it at the cursor. -/
structure ReplayMemory (α : Type) where
  capacity : ℕ
  memory : List (Option α)
  position : ℕ
deriving DecidableEq, Repr

/-- A freshly constructed `ReplayMemory(capacity)`. -/
def ReplayMemory.init (α : Type) (capacity : ℕ) : ReplayMemory α :=
  ⟨capacity, [], 0⟩

/-- `ReplayMemory.push`: grow the backing list with a `None` placeholder while
below capacity, write the transition at the cursor, and advance the cursor
modulo the capacity (lines 35-38; the `.to('cpu')` residency moves on lines
29-33 are identities in this model). -/
def ReplayMemory.push (m : ReplayMemory α) (t : α) : ReplayMemory α :=
  let mem1 := if m.memory.length < m.capacity then m.memory ++ [none] else m.memory
  { m with
    memory := mem1.set m.position (some t)
    position := (m.position + 1) % m.capacity }

/-- `ReplayMemory.__len__`. -/
def ReplayMemory.size (m : ReplayMemory α) : ℕ :=
  m.memory.length

/-- Push a whole list of transitions in order. -/
def ReplayMemory.pushAll (m : ReplayMemory α) (ts : List α) : ReplayMemory α :=
  ts.foldl ReplayMemory.push m

/-- `ReplayMemory.sample`, i.e. `random.sample(self.memory, batch_size)`:
`random.sample` raises `ValueError` when the requested count exceeds the
population size, and otherwise returns the entries at `batch_size` distinct
uniformly random positions, in draw order.  The random positions are the
explicit `draw` argument here. -/
def ReplayMemory.sample (m : ReplayMemory α) (batch_size : ℕ) (draw : List ℕ) :
    Option (List (Option α)) :=
  if m.memory.length < batch_size then none
  else some (draw.map fun i => m.memory.getD i none)

/-- The suffix of the push sequence that a capacity-`C` buffer retains. -/
def keptSuffix (ts : List α) (C : ℕ) : List α :=
  ts.drop (ts.length - min ts.length C)

theorem pushAll_concat (m : ReplayMemory α) (ts : List α) (t : α) :
    m.pushAll (ts ++ [t]) = (m.pushAll ts).push t := by
  simp [ReplayMemory.pushAll, List.foldl_append]

theorem succ_mod_mod (n C : ℕ) : (n % C + 1) % C = (n + 1) % C :=
  (Nat.mod_modEq n C).add_right 1

theorem pushAll_invariant {α : Type} (C : ℕ) (hC : 1 ≤ C) (ts : List α) :
    ((ReplayMemory.init α C).pushAll ts).capacity = C ∧
    ((ReplayMemory.init α C).pushAll ts).position = ts.length % C ∧
    ((ReplayMemory.init α C).pushAll ts).memory.length = min ts.length C ∧
    ((ReplayMemory.init α C).pushAll ts).memory =
      ((keptSuffix ts C).map some).drop (min ts.length C - ts.length % C) ++
      ((keptSuffix ts C).map some).take (min ts.length C - ts.length % C) := by
  induction ts using List.reverseRecOn with
  | nil => simp [ReplayMemory.pushAll, ReplayMemory.init, keptSuffix]
  | append_singleton ts t ih =>
    obtain ⟨hcap, hpos, hlen, hmem⟩ := ih
    rw [pushAll_concat]
    set m := (ReplayMemory.init α C).pushAll ts with hm
    set n := ts.length with hn
    have hlen1 : (ts ++ [t]).length = n + 1 := by simp [hn]
    by_cases hlt : n < C
    · -- buffer not yet full: the push appends at the end
      have hminn : min n C = n := min_eq_left hlt.le
      have hposn : m.position = n := by rw [hpos, Nat.mod_eq_of_lt hlt]
      have hmem' : m.memory = ts.map some := by
        rw [hmem]
        simp [keptSuffix, hminn, Nat.mod_eq_of_lt hlt]
      have hpush : (m.push t).memory = (ts ++ [t]).map some := by
        simp only [ReplayMemory.push]
        rw [hlen, hminn, hcap, if_pos hlt, hposn, hmem']
        rw [show n = (ts.map some).length by simp [hn]]
        rw [List.set_append_right _ _ (le_refl _)]
        simp
      have hsucc : n + 1 ≤ C := hlt
      have hmin' : min (n + 1) C = n + 1 := min_eq_left hsucc
      have hkept' : keptSuffix (ts ++ [t]) C = ts ++ [t] := by
        simp [keptSuffix, hlen1, hmin']
      refine ⟨by simp [ReplayMemory.push, hcap], ?_, ?_, ?_⟩
      · simp only [ReplayMemory.push]
        rw [hposn, hcap, hlen1]
      · rw [hpush, hlen1, hmin']
        simp
      · rw [hpush, hkept', hlen1, hmin']
        rcases Nat.lt_or_ge (n + 1) C with hlt2 | hge2
        · rw [Nat.mod_eq_of_lt hlt2]
          simp
        · have heq : n + 1 = C := le_antisymm hsucc hge2
          have hmod : (n + 1) % C = 0 := by rw [heq]; exact Nat.mod_self C
          rw [hmod, Nat.sub_zero]
          have hle : ((ts ++ [t]).map some).length ≤ n + 1 := by simp [hn]
          rw [List.drop_eq_nil_of_le hle, List.take_of_length_le hle]
          simp
    · -- buffer full: the push overwrites the slot at the cursor
      have hge : C ≤ n := le_of_not_lt hlt
      have hminC : min n C = C := min_eq_right hge
      set p := n % C with hpdef
      have hp : p < C := Nat.mod_lt n hC
      set K : List (Option α) := (keptSuffix ts C).map some with hK
      have hKlen : K.length = C := by
        simp [hK, keptSuffix, hminC]
        omega
      have hmemK : m.memory = K.drop (C - p) ++ K.take (C - p) := by
        rw [hmem, hminC]
      -- K is nonempty, split off its head
      obtain ⟨k0, K1, hK01⟩ : ∃ k0 K1, K = k0 :: K1 := by
        cases hKc : K with
        | nil => rw [hKc] at hKlen; simp at hKlen; omega
        | cons a l => exact ⟨a, l, rfl⟩
      have hK1len : K1.length = C - 1 := by
        have := hKlen
        rw [hK01] at this
        simp at this
        omega
      -- the retained suffix for ts ++ [t] is K1 ++ [some t]
      have hkept' : (keptSuffix (ts ++ [t]) C).map some = K1 ++ [some t] := by
        have hminC' : min (n + 1) C = C := min_eq_right (by omega)
        have h1 : keptSuffix (ts ++ [t]) C = ts.drop (n + 1 - C) ++ [t] := by
          simp only [keptSuffix, hlen1, hminC']
          rw [List.drop_append_of_le_length (by omega)]
        have h2 : (ts.drop (n + 1 - C)).map some = K1 := by
          have h3 : ts.drop (n + 1 - C) = (ts.drop (n - C)).drop 1 := by
            rw [List.drop_drop]
            congr 1
            omega
          have h4 : K.drop 1 = K1 := by rw [hK01]; simp
          rw [h3, ← h4, hK]
          simp only [keptSuffix, hminC, ← hn]
          rw [List.map_drop]
        rw [h1]
        simp only [List.map_append, List.map_cons, List.map_nil, h2]
      -- the new memory after the overwrite
      have hmemlen : m.memory.length = C := by rw [hlen, hminC]
      have hdroplen : (K.drop (C - p)).length = p := by
        simp [hKlen]
        omega
      have hpush : (m.push t).memory =
          K1.drop (C - p - 1) ++ some t :: K1.take (C - p - 1) := by
        simp only [ReplayMemory.push]
        rw [hmemlen, hcap, if_neg (lt_irrefl C), hpos, hmemK]
        rw [List.set_append_right _ _
          (show (List.drop (C - p) K).length ≤ p from by rw [hdroplen])]
        rw [show p - (List.drop (C - p) K).length = 0 from by rw [hdroplen]; omega]
        have htake : K.take (C - p) = k0 :: K1.take (C - p - 1) := by
          rw [hK01, show C - p = (C - p - 1) + 1 by omega]
          simp
        have hdrop : K.drop (C - p) = K1.drop (C - p - 1) := by
          rw [hK01, show C - p = (C - p - 1) + 1 by omega]
          simp
        rw [htake, hdrop]
        simp
      refine ⟨by simp [ReplayMemory.push, hcap], ?_, ?_, ?_⟩
      · simp only [ReplayMemory.push]
        rw [hpos, hcap, hlen1]
        exact succ_mod_mod n C
      · rw [hpush, hlen1, min_eq_right (by omega : C ≤ n + 1)]
        simp [hK1len]
        omega
      · rw [hpush, hkept', hlen1, min_eq_right (by omega : C ≤ n + 1)]
        rw [show (n + 1) % C = (p + 1) % C from (succ_mod_mod n C).symm]
        rcases Nat.lt_or_ge (p + 1) C with hp1 | hp1
        · rw [Nat.mod_eq_of_lt hp1]
          rw [List.drop_append_of_le_length (by omega : C - (p + 1) ≤ K1.length)]
          rw [List.take_append_of_le_length (by omega : C - (p + 1) ≤ K1.length)]
          rw [show C - (p + 1) = C - p - 1 by omega]
          simp
        · have hpe : p + 1 = C := le_antisymm hp hp1
          rw [show C - p - 1 = 0 by omega]
          rw [hpe, Nat.mod_self, Nat.sub_zero]
          have hlen2 : (K1 ++ [some t]).length ≤ C := by simp [hK1len]; omega
          rw [List.drop_eq_nil_of_le hlen2, List.take_of_length_le hlen2]
          simp

/-- Claim C5: for every capacity `C ≥ 1`, after `n` pushes into a fresh
`ReplayMemory` the size equals `min n C`, the write position wraps modulo `C`,
and the stored contents are exactly the most recently pushed `min n C`
transitions (rotating the buffer to start at the write position recovers them
oldest first, i.e. the oldest was overwritten first); in particular with
`C = 3`, pushing transitions `0..4` leaves exactly `{2, 3, 4}`. -/
theorem replay_push_eviction :
    (∀ (α : Type) (C : ℕ) (ts : List α), 1 ≤ C →
      ((ReplayMemory.init α C).pushAll ts).size = min ts.length C ∧
      ((ReplayMemory.init α C).pushAll ts).position = ts.length % C ∧
      ((ReplayMemory.init α C).pushAll ts).memory.rotate
          ((ReplayMemory.init α C).pushAll ts).position =
        (ts.drop (ts.length - min ts.length C)).map some ∧
      List.Perm ((ReplayMemory.init α C).pushAll ts).memory
        ((ts.drop (ts.length - min ts.length C)).map some)) ∧
    ((ReplayMemory.init ℕ 3).pushAll [0, 1, 2, 3, 4]).memory =
      [some 3, some 4, some 2] := by
  constructor
  · intro α C ts hC
    obtain ⟨hcap, hpos, hlen, hmem⟩ := pushAll_invariant C hC ts
    have hple : ts.length % C ≤ min ts.length C := by
      rcases Nat.lt_or_ge ts.length C with h | h
      · rw [Nat.mod_eq_of_lt h, min_eq_left h.le]
      · have := Nat.mod_lt ts.length hC
        omega
    have hKlen : ((keptSuffix ts C).map some).length = min ts.length C := by
      simp [keptSuffix]
      omega
    have hrot : ((ReplayMemory.init α C).pushAll ts).memory =
        ((keptSuffix ts C).map some).rotate (min ts.length C - ts.length % C) := by
      rw [hmem, List.rotate_eq_drop_append_take (by omega : _ - _ ≤ _)]
    refine ⟨hlen, hpos, ?_, ?_⟩
    · rw [hrot, hpos, List.rotate_rotate,
        show min ts.length C - ts.length % C + ts.length % C = min ts.length C by omega,
        ← hKlen, List.rotate_length, hKlen]
      rfl
    · rw [hrot]
      exact (List.rotate_perm _ _).trans (by rfl)
  · decide

/-- Selecting positions of a list in increasing order yields a sublist. -/
theorem filter_range_map_getD_sublist (l : List β) (d : β) (p : ℕ → Bool) :
    List.Sublist (((List.range l.length).filter p).map fun i => l.getD i d) l := by
  induction l using List.reverseRecOn with
  | nil => simp
  | append_singleton l a ih =>
    have hlen : (l ++ [a]).length = l.length + 1 := by simp
    rw [hlen, List.range_succ, List.filter_append, List.map_append]
    have h1 : ((List.range l.length).filter p).map (fun i => (l ++ [a]).getD i d) =
        ((List.range l.length).filter p).map fun i => l.getD i d := by
      apply List.map_congr_left
      intro i hi
      have hi2 : i < l.length := by
        have := (List.mem_filter.mp hi).1
        simpa using this
      exact List.getD_append l [a] d i hi2
    rw [h1]
    refine List.Sublist.append ih ?_
    by_cases hp : p l.length
    · have ha : (l ++ [a]).getD l.length d = a := by
        rw [List.getD_append_right l [a] d l.length (le_refl _)]
        simp
      simp [hp, ha]
    · simp [hp]

/-- A nodup list of in-range positions is a permutation of the sorted
selection of those positions. -/
theorem nodup_draw_perm_filter (draw : List ℕ) (n : ℕ) (hnd : draw.Nodup)
    (hb : ∀ i ∈ draw, i < n) :
    List.Perm draw ((List.range n).filter fun i => decide (i ∈ draw)) := by
  rw [List.perm_ext_iff_of_nodup hnd ((List.nodup_range n).filter _)]
  intro a
  simp only [List.mem_filter, List.mem_range, decide_eq_true_eq]
  constructor
  · intro ha
    exact ⟨hb a ha, ha⟩
  · intro ha
    exact ha.2

/-- Claim C6: `sample(batch_size)` fails (models the `ValueError` from
`random.sample`) exactly when `batch_size` exceeds the stored size, and is not
recovered internally; otherwise, for every admissible random draw (distinct
in-range positions, which is what `random.sample` produces), it returns
`batch_size` entries taken without replacement from the currently stored
contents (a sub-permutation of the buffer), in draw order. -/
theorem sample_without_replacement :
    (∀ (α : Type) (m : ReplayMemory α) (batch_size : ℕ) (draw : List ℕ),
      m.size < batch_size → m.sample batch_size draw = none) ∧
    (∀ (α : Type) (m : ReplayMemory α) (batch_size : ℕ) (draw : List ℕ),
      batch_size ≤ m.size → draw.length = batch_size → draw.Nodup →
      (∀ i ∈ draw, i < m.size) →
      m.sample batch_size draw = some (draw.map fun i => m.memory.getD i none) ∧
      (draw.map fun i => m.memory.getD i none).length = batch_size ∧
      List.Subperm (draw.map fun i => m.memory.getD i none) m.memory) := by
  constructor
  · intro α m batch_size draw h
    simp only [ReplayMemory.sample, ReplayMemory.size] at *
    rw [if_pos h]
  · intro α m batch_size draw hle hlen hnd hb
    refine ⟨?_, by simpa using hlen, ?_⟩
    · simp only [ReplayMemory.sample, ReplayMemory.size] at *
      rw [if_neg (by omega)]
    · have hperm := nodup_draw_perm_filter draw m.memory.length hnd hb
      have hsub := filter_range_map_getD_sublist m.memory none
        fun i => decide (i ∈ draw)
      exact ⟨((List.range m.memory.length).filter fun i => decide (i ∈ draw)).map
          fun i => m.memory.getD i none,
        (hperm.map fun i => m.memory.getD i none).symm, hsub⟩

/-- `tensor.max(1)[0]` on one row of Q-values: the maximum entry
(0 for an empty row, which a real network never produces). -/
def rowMax : List ℚ → ℚ
  | [] => 0
  | a :: as => as.foldl max a

theorem foldl_max_comm (as : List ℚ) : ∀ a b : ℚ,
    as.foldl max (max a b) = max a (as.foldl max b) := by
  induction as with
  | nil => intro a b; rfl
  | cons c cs ih =>
    intro a b
    simp only [List.foldl_cons]
    rw [max_assoc, ih]

theorem rowMax_cons (a : ℚ) (as : List ℚ) (h : as ≠ []) :
    rowMax (a :: as) = max a (rowMax as) := by
  cases as with
  | nil => exact absurd rfl h
  | cons b bs =>
    simp only [rowMax, List.foldl_cons]
    exact foldl_max_comm bs a b

theorem rowMax_mem : ∀ (l : List ℚ), l ≠ [] → rowMax l ∈ l := by
  intro l
  induction l with
  | nil => intro h; exact absurd rfl h
  | cons a as ih =>
    intro _
    cases has : as with
    | nil => simp [rowMax]
    | cons b bs =>
      rw [← has, rowMax_cons a as (by simp [has])]
      rcases le_total (rowMax as) a with h | h
      · rw [max_eq_left h]; simp
      · rw [max_eq_right h]
        exact List.mem_cons_of_mem a (ih (by simp [has]))

theorem le_rowMax : ∀ (l : List ℚ), ∀ x ∈ l, x ≤ rowMax l := by
  intro l
  induction l with
  | nil => intro x hx; simp at hx
  | cons a as ih =>
    intro x hx
    by_cases has : as = []
    · subst has
      simp at hx
      simp [hx, rowMax]
    · rw [rowMax_cons a as has]
      rcases List.mem_cons.mp hx with h | h
      · rw [h]; exact le_max_left _ _
      · exact le_trans (ih x h) (le_max_right _ _)

/-- `tensor.max(1)[1]` on one row: the index of the first (lowest-index)
occurrence of the maximum. -/
def argmaxLow : List ℚ → ℕ
  | [] => 0
  | a :: as => if rowMax (a :: as) = a then 0 else argmaxLow as + 1

theorem argmaxLow_spec : ∀ (l : List ℚ), l ≠ [] →
    argmaxLow l < l.length ∧ l.getD (argmaxLow l) 0 = rowMax l ∧
    ∀ j < argmaxLow l, l.getD j 0 < rowMax l := by
  intro l
  induction l with
  | nil => intro h; exact absurd rfl h
  | cons a as ih =>
    intro _
    by_cases hm : rowMax (a :: as) = a
    · refine ⟨by simp [argmaxLow, hm], by simp [argmaxLow, hm], ?_⟩
      intro j hj
      simp [argmaxLow, hm] at hj
    · have has : as ≠ [] := by
        intro h
        rw [h] at hm
        exact hm rfl
      have hrc := rowMax_cons a as has
      have hle : a ≤ rowMax (a :: as) := le_rowMax _ a (by simp)
      have hne : rowMax (a :: as) = rowMax as := by
        rcases le_total a (rowMax as) with h | h
        · rw [hrc, max_eq_right h]
        · exact absurd (by rw [hrc, max_eq_left h]) hm
      obtain ⟨ih1, ih2, ih3⟩ := ih has
      have harg : argmaxLow (a :: as) = argmaxLow as + 1 := by
        simp [argmaxLow, hm]
      refine ⟨by simp [harg]; omega, ?_, ?_⟩
      · rw [harg, hne]
        simpa using ih2
      · intro j hj
        rw [harg] at hj
        cases j with
        | zero =>
          simpa using lt_of_le_of_ne hle (fun h => hm h.symm)
        | succ k =>
          rw [hne]
          simpa using ih3 k (by omega)

/-- A tensor scalar with its autograd flag, enough to model `.detach()`. -/
structure TVal where
  val : ℚ
  requires_grad : Bool
deriving DecidableEq, Repr

/-- `.detach()`: same value, no gradient tracking. -/
def tvDetach (v : TVal) : TVal :=
  ⟨v.val, false⟩

/-- Multiplication by a plain scalar keeps the gradient flag. -/
def tvMulScalar (v : TVal) (c : ℚ) : TVal :=
  ⟨v.val * c, v.requires_grad⟩

/-- Elementwise addition tracks gradients if either side does. -/
def tvAdd (a b : TVal) : TVal :=
  ⟨a.val + b.val, a.requires_grad || b.requires_grad⟩

/-- `self.target_net(s).max(1)[0]` for one non-final next state: the Target
Network forward pass is gradient-tracked until `.detach()` severs it. -/
def targetNetMax (Qtarget : ℕ → List ℚ) (s : ℕ) : TVal :=
  ⟨rowMax (Qtarget s), true⟩

/-- `torch.zeros(batch)` followed by the masked scatter
`next_state_values[non_final_mask] = vals`: walk the mask, consuming the
computed values in order at `true` positions and leaving zeros elsewhere. -/
def scatterMask : List Bool → List TVal → List TVal
  | [], _ => []
  | true :: ms, v :: vs => v :: scatterMask ms vs
  | true :: ms, [] => ⟨0, false⟩ :: scatterMask ms []
  | false :: ms, vs => ⟨0, false⟩ :: scatterMask ms vs

/-- Lines 160-161: `next_state_values` is zero at terminal entries and the
detached Target-Network row maximum at non-terminal entries, assigned through
the `non_final_mask` in batch order. -/
def next_state_values (Qtarget : ℕ → List ℚ) (batch : List Transition) : List TVal :=
  scatterMask (batch.map fun t => t.next_state.isSome)
    ((batch.filterMap Transition.next_state).map fun s => tvDetach (targetNetMax Qtarget s))

/-- Line 163: `expected_state_action_values = (next_state_values * self.gamma)
+ reward_batch` (rewards are stored tensors and carry no gradient). -/
def expected_state_action_values (gamma : ℚ) (Qtarget : ℕ → List ℚ)
    (batch : List Transition) : List TVal :=
  List.zipWith (fun v r => tvAdd (tvMulScalar v gamma) ⟨r, false⟩)
    (next_state_values Qtarget batch) (batch.map Transition.reward)

theorem next_state_values_spec (Qtarget : ℕ → List ℚ) :
    ∀ (batch : List Transition),
      (next_state_values Qtarget batch).length = batch.length ∧
      ∀ i < batch.length,
        (next_state_values Qtarget batch).getD i ⟨0, false⟩ =
          ((batch.getD i default).next_state).elim (⟨0, false⟩ : TVal)
            (fun s => ⟨rowMax (Qtarget s), false⟩) := by
  intro batch
  induction batch with
  | nil => simp [next_state_values, scatterMask]
  | cons t ts ih =>
    obtain ⟨ih1, ih2⟩ := ih
    cases hns : t.next_state with
    | none =>
      have hred : next_state_values Qtarget (t :: ts) =
          ⟨0, false⟩ :: next_state_values Qtarget ts := by
        simp [next_state_values, hns, List.filterMap_cons, scatterMask]
      constructor
      · simp [hred, ih1]
      · intro i hi
        cases i with
        | zero => simp [hred, hns]
        | succ k =>
          simp only [hred, List.getD_cons_succ, List.getD_cons_succ]
          exact ih2 k (by simpa using hi)
    | some s =>
      have hred : next_state_values Qtarget (t :: ts) =
          ⟨rowMax (Qtarget s), false⟩ :: next_state_values Qtarget ts := by
        simp [next_state_values, hns, List.filterMap_cons, scatterMask,
          tvDetach, targetNetMax]
      constructor
      · simp [hred, ih1]
      · intro i hi
        cases i with
        | zero => simp [hred, hns]
        | succ k =>
          simp only [hred, List.getD_cons_succ, List.getD_cons_succ]
          exact ih2 k (by simpa using hi)

theorem getD_zipWith (f : β → γ → δ) (l1 : List β) (l2 : List γ) (i : ℕ)
    (d1 : β) (d2 : γ) (d : δ) (h1 : i < l1.length) (h2 : i < l2.length) :
    (List.zipWith f l1 l2).getD i d = f (l1.getD i d1) (l2.getD i d2) := by
  rw [List.getD_eq_getElem _ _ (by rw [List.length_zipWith]; omega)]
  rw [List.getElem_zipWith]
  rw [List.getD_eq_getElem _ _ h1, List.getD_eq_getElem _ _ h2]

/-- Claim C1: in `optimizeModel` (lines 160-163) the regression target for a
sampled terminal transition is exactly its reward, and for a non-terminal
transition it is `reward + gamma * max Q_target(next_state)` where the
maximum really is a maximum of the Target-Network row, with the Target-Network
contribution detached so it carries no gradient tracking. -/
theorem optimizeModel_td_target :
    ∀ (gamma : ℚ) (Qtarget : ℕ → List ℚ) (batch : List Transition) (i : ℕ),
      i < batch.length →
      (expected_state_action_values gamma Qtarget batch).length = batch.length ∧
      ((batch.getD i default).next_state = none →
        (expected_state_action_values gamma Qtarget batch).getD i ⟨0, false⟩ =
          ⟨(batch.getD i default).reward, false⟩) ∧
      (∀ s, (batch.getD i default).next_state = some s →
        ((expected_state_action_values gamma Qtarget batch).getD i ⟨0, false⟩).val =
          (batch.getD i default).reward + gamma * rowMax (Qtarget s) ∧
        ((expected_state_action_values gamma Qtarget batch).getD i
            ⟨0, false⟩).requires_grad = false ∧
        (Qtarget s ≠ [] →
          rowMax (Qtarget s) ∈ Qtarget s ∧
          ∀ x ∈ Qtarget s, x ≤ rowMax (Qtarget s))) := by
  intro gamma Qtarget batch i hi
  obtain ⟨hlen, hget⟩ := next_state_values_spec Qtarget batch
  have hlenz : (expected_state_action_values gamma Qtarget batch).length
      = batch.length := by
    simp [expected_state_action_values, hlen]
  have hkey : (expected_state_action_values gamma Qtarget batch).getD i ⟨0, false⟩ =
      tvAdd (tvMulScalar ((next_state_values Qtarget batch).getD i ⟨0, false⟩) gamma)
        ⟨(batch.map Transition.reward).getD i 0, false⟩ := by
    simp only [expected_state_action_values]
    exact getD_zipWith (fun v r => tvAdd (tvMulScalar v gamma) ⟨r, false⟩)
      (next_state_values Qtarget batch) (batch.map Transition.reward) i
      ⟨0, false⟩ 0 ⟨0, false⟩ (by rw [hlen]; exact hi) (by simpa using hi)
  have hrew : (batch.map Transition.reward).getD i 0
      = (batch.getD i default).reward := by
    rw [List.getD_eq_getElem _ _ (by simp; omega), List.getElem_map,
      List.getD_eq_getElem _ _ hi]
  have hnsv := hget i hi
  refine ⟨hlenz, ?_, ?_⟩
  · intro hn
    rw [hkey, hrew, hnsv, hn]
    simp [tvAdd, tvMulScalar]
  · intro s hs
    refine ⟨?_, ?_, ?_⟩
    · rw [hkey, hrew, hnsv, hs]
      simp [tvAdd, tvMulScalar]
      ring
    · rw [hkey, hnsv, hs]
      simp [tvAdd, tvMulScalar]
    · intro hne
      exact ⟨rowMax_mem _ hne, le_rowMax _⟩

theorem optimizeModel_td_target_witness :
    ((expected_state_action_values (9/10) (fun _ => [2, 0])
      [⟨0, 0, some 1, 1⟩]).getD 0 ⟨0, false⟩).val = 14/5 := by
  have h := optimizeModel_td_target (9/10) (fun _ => [2, 0])
    [⟨0, 0, some 1, 1⟩] 0 (by decide)
  have h2 := (h.2.2 1 rfl).1
  rw [h2]
  norm_num [rowMax]

/-- `DQNAgent`: the orchestrator state of `dqn_agent.py`.  Network parameter
sets and optimizer state are lists of rationals; the model forward pass
(`model_class`), the exploration schedule and the net optimizer effect of
`zero_grad`/`backward`/`step` are collaborator functions. -/
structure DQNAgent where
  Qfun : List ℚ → ℕ → List ℚ
  exploration : ℕ → ℚ
  nA : ℕ
  optimStep : List ℚ → List ℚ → ℚ → List ℚ × List ℚ
  gamma : ℚ
  batch_size : ℕ
  target_update : ℕ
  policyParams : List ℚ
  targetParams : List ℚ
  optState : List ℚ
  memory : ReplayMemory Transition
  steps_done : ℕ
  episodes_done : ℕ
  episode_rewards : List ℚ
  episode_lengths : List ℕ
  state : Option ℕ

/-- `forwardPolicyNet` (lines 88-96): a no-gradient forward pass of the
Policy Network. -/
def DQNAgent.forwardPolicyNet (ag : DQNAgent) (s : ℕ) : List ℚ :=
  ag.Qfun ag.policyParams s

/-- `selectAction` (lines 98-119): read epsilon at the current step counter,
increment the counter, forward the Policy Network, then either exploit
(`random.random() > e`, the draw `r`) with the lowest-index argmax or explore
with the uniform draw `rnd` from `randrange(action_space)`; the reported
Q-value is gathered at the chosen action either way. -/
def DQNAgent.selectAction (ag : DQNAgent) (s : ℕ) (r : ℚ) (rnd : ℕ) :
    DQNAgent × ℕ × ℚ :=
  let e := ag.exploration ag.steps_done
  let ag1 := { ag with steps_done := ag.steps_done + 1 }
  let q_values := ag.forwardPolicyNet s
  let action := if e < r then argmaxLow q_values else rnd
  (ag1, action, q_values.getD action 0)

/-- Claim C7: every `selectAction` call computes epsilon from the
pre-increment `steps_done` (the branch taken depends on
`exploration.value(steps_done)` before the increment), and increments
`steps_done` by exactly one - and changes nothing else - in both the greedy
and the exploratory branch; the reported Q-value is that of the chosen
action. -/
theorem selectAction_pre_increment :
    ∀ (ag : DQNAgent) (s : ℕ) (r : ℚ) (rnd : ℕ),
      (ag.selectAction s r rnd).1 = { ag with steps_done := ag.steps_done + 1 } ∧
      (ag.selectAction s r rnd).2.1 =
        (if ag.exploration ag.steps_done < r
         then argmaxLow (ag.Qfun ag.policyParams s) else rnd) ∧
      (ag.selectAction s r rnd).2.2 =
        (ag.Qfun ag.policyParams s).getD ((ag.selectAction s r rnd).2.1) 0 := by
  intro ag s r rnd
  exact ⟨rfl, rfl, rfl⟩

/-- A concrete agent whose Q-row at every state is `[0, 1]` and whose
exploration schedule is constantly zero. -/
def greedyAgent : DQNAgent where
  Qfun := fun _ _ => [0, 1]
  exploration := fun _ => 0
  nA := 2
  optimStep := fun p o _ => (p, o)
  gamma := 1
  batch_size := 1
  target_update := 1
  policyParams := []
  targetParams := []
  optState := []
  memory := ReplayMemory.init Transition 8
  steps_done := 0
  episodes_done := 0
  episode_rewards := []
  episode_lengths := []
  state := some 0

/-- Counterexample to claim C8 as stated: `random.random()` draws from
`[0, 1)` and can return exactly `0`, and line 108 tests the strict
`random.random() > e`; with `epsilon = 0` and draw `0` the exploratory branch
runs and returns the random action `0`, not the argmax `1`. -/
theorem selectAction_greedy_counterexample :
    greedyAgent.exploration greedyAgent.steps_done = 0 ∧
    (greedyAgent.selectAction 0 0 0).2.1 = 0 ∧
    argmaxLow (greedyAgent.Qfun greedyAgent.policyParams 0) = 1 ∧
    (greedyAgent.selectAction 0 0 0).2.1 ≠
      argmaxLow (greedyAgent.Qfun greedyAgent.policyParams 0) := by
  refine ⟨rfl, by decide, by decide, by decide⟩

/-- Claim C8 (amended): with epsilon equal to 0, `selectAction` returns the
lowest-index argmax action deterministically for every draw `random.random()`
strictly greater than 0 - all draws except exactly `0.0`, which takes the
exploratory branch because line 108 compares strictly - and the Q-value it
reports is always the Q-value of the chosen action (in every branch). -/
theorem selectAction_greedy_amended :
    ∀ (ag : DQNAgent) (s : ℕ),
      ag.Qfun ag.policyParams s ≠ [] →
      ag.exploration ag.steps_done = 0 →
      (∀ (r : ℚ) (rnd : ℕ), 0 < r →
        (ag.selectAction s r rnd).2.1 = argmaxLow (ag.Qfun ag.policyParams s) ∧
        (ag.selectAction s r rnd).2.1 < (ag.Qfun ag.policyParams s).length ∧
        (ag.Qfun ag.policyParams s).getD ((ag.selectAction s r rnd).2.1) 0 =
          rowMax (ag.Qfun ag.policyParams s) ∧
        (∀ x ∈ ag.Qfun ag.policyParams s,
          x ≤ (ag.Qfun ag.policyParams s).getD ((ag.selectAction s r rnd).2.1) 0) ∧
        (∀ j < (ag.selectAction s r rnd).2.1,
          (ag.Qfun ag.policyParams s).getD j 0 <
            rowMax (ag.Qfun ag.policyParams s))) ∧
      (∀ (r : ℚ) (rnd : ℕ),
        (ag.selectAction s r rnd).2.2 =
          (ag.Qfun ag.policyParams s).getD ((ag.selectAction s r rnd).2.1) 0) := by
  intro ag s hne he
  constructor
  · intro r rnd hr
    have hact : (ag.selectAction s r rnd).2.1 =
        argmaxLow (ag.Qfun ag.policyParams s) := by
      show (if ag.exploration ag.steps_done < r
        then argmaxLow (ag.forwardPolicyNet s) else rnd) = _
      rw [he, if_pos hr]
      rfl
    obtain ⟨h1, h2, h3⟩ := argmaxLow_spec _ hne
    refine ⟨hact, by rw [hact]; exact h1, by rw [hact]; exact h2, ?_, ?_⟩
    · intro x hx
      rw [hact, h2]
      exact le_rowMax _ x hx
    · intro j hj
      rw [hact] at hj
      exact h3 j hj
  · intro r rnd
    rfl

theorem selectAction_greedy_amended_witness :
    (greedyAgent.selectAction 0 (1/2) 1).2.1 = 1 := by
  have h := (selectAction_greedy_amended greedyAgent 0 (by decide) (by decide)).1
    (1/2) 1 (by norm_num)
  rw [h.1]
  decide

/-- `torch.cat`: concatenating a sequence of row tensors, which raises
`RuntimeError` on an empty sequence. -/
def torchCat (l : List β) : Except String (List β) :=
  if l.isEmpty then Except.error "cat of an empty tensor list" else Except.ok l

/-- `getNonFinalNextStateBatch` (lines 121-130): concatenate the non-`None`
next states of the mini batch, in batch order. -/
def getNonFinalNextStateBatch (batch : List Transition) : Except String (List ℕ) :=
  torchCat (batch.filterMap Transition.next_state)

/-- `F.mse_loss`: mean squared error over the batch. -/
def mseLoss (pred target : List ℚ) : ℚ :=
  (List.zipWith (fun a b => (a - b) ^ 2) pred target).sum / (pred.length : ℚ)

/-- `optimizeModel` (lines 142-169): return unchanged while the Replay Memory
holds fewer than `batch_size` transitions; otherwise sample a mini batch,
concatenate the non-final next states (raising on an all-terminal batch), the
states, actions and rewards, compute the TD targets against the Target
Network, compute the MSE loss of the gathered policy Q-values, and apply one
optimizer step to the Policy Network parameters and optimizer state. -/
def DQNAgent.optimizeModel (ag : DQNAgent) (draw : List ℕ) : Except String DQNAgent :=
  if ag.memory.size < ag.batch_size then Except.ok ag
  else
    match ag.memory.sample ag.batch_size draw with
    | none => Except.error "sample larger than population"
    | some picked =>
      if picked.all Option.isSome then
        match getNonFinalNextStateBatch picked.reduceOption with
        | Except.error e => Except.error e
        | Except.ok _ =>
          match torchCat (picked.reduceOption.map Transition.state) with
          | Except.error e => Except.error e
          | Except.ok _ =>
            match torchCat (picked.reduceOption.map Transition.action) with
            | Except.error e => Except.error e
            | Except.ok _ =>
              match torchCat (picked.reduceOption.map Transition.reward) with
              | Except.error e => Except.error e
              | Except.ok _ =>
                let state_action_values := picked.reduceOption.map fun t =>
                  (ag.Qfun ag.policyParams t.state).getD t.action 0
                let expected := expected_state_action_values ag.gamma
                  (ag.Qfun ag.targetParams) picked.reduceOption
                let loss := mseLoss state_action_values (expected.map TVal.val)
                Except.ok { ag with
                  policyParams := (ag.optimStep ag.policyParams ag.optState loss).1
                  optState := (ag.optimStep ag.policyParams ag.optState loss).2 }
      else Except.error "NoneType entry in batch"

theorem optimizeModel_guard_noop :
    ∀ (ag : DQNAgent) (draw : List ℕ), ag.memory.size < ag.batch_size →
      ag.optimizeModel draw = Except.ok ag := by
  intro ag draw h
  simp [DQNAgent.optimizeModel, h]

/-- Claim C9: when the Replay Memory holds fewer than `batch_size`
transitions, `optimizeModel` is a no-op: the guard on lines 147-148 returns
before sampling, before either network is evaluated, and the returned agent -
Policy Network parameters, optimizer state and Replay Memory included - is
the input agent unchanged. -/
theorem optimizeModel_noop_when_small :
    ∀ (ag : DQNAgent) (draw : List ℕ), ag.memory.size < ag.batch_size →
      ag.optimizeModel draw = Except.ok ag :=
  optimizeModel_guard_noop

/-- An agent with an empty Replay Memory. -/
def noopAgent : DQNAgent where
  Qfun := fun _ _ => [0]
  exploration := fun _ => 1
  nA := 1
  optimStep := fun p o _ => (p, o)
  gamma := 1/2
  batch_size := 1
  target_update := 5
  policyParams := [0]
  targetParams := [0]
  optState := []
  memory := ReplayMemory.init Transition 4
  steps_done := 0
  episodes_done := 0
  episode_rewards := []
  episode_lengths := []
  state := some 0

theorem optimizeModel_noop_when_small_witness :
    noopAgent.optimizeModel [] = Except.ok noopAgent :=
  optimizeModel_noop_when_small noopAgent [] (by decide)

/-- Claim C10: if the memory is large enough to sample but every drawn
transition is terminal, `optimizeModel` raises the `torch.cat` error on the
empty non-final next-state sequence (line 128) instead of performing an
update; a batch with at least one non-terminal transition is an unstated
precondition of the update. -/
theorem optimizeModel_all_terminal_errors :
    ∀ (ag : DQNAgent) (draw : List ℕ),
      ag.batch_size ≤ ag.memory.size →
      (∀ i ∈ draw, ∃ t, ag.memory.memory.getD i none = some t ∧
        t.next_state = none) →
      ag.optimizeModel draw = Except.error "cat of an empty tensor list" := by
  intro ag draw hsz hterm
  have hsample : ag.memory.sample ag.batch_size draw
      = some (draw.map fun i => ag.memory.memory.getD i none) := by
    simp only [ReplayMemory.sample]
    rw [if_neg (by simp only [ReplayMemory.size] at hsz; omega)]
  have hall : (draw.map fun i => ag.memory.memory.getD i none).all Option.isSome
      = true := by
    rw [List.all_eq_true]
    intro x hx
    obtain ⟨i, hi, hxeq⟩ := List.mem_map.mp hx
    obtain ⟨t, ht, _⟩ := hterm i hi
    rw [← hxeq, ht]
    rfl
  have hnil : (draw.map fun i => ag.memory.memory.getD i none).reduceOption.filterMap
      Transition.next_state = [] := by
    rw [List.filterMap_eq_nil_iff]
    intro t ht
    have hmem : some t ∈ draw.map fun i => ag.memory.memory.getD i none :=
      List.reduceOption_mem_iff.mp ht
    obtain ⟨i, hi, hsome⟩ := List.mem_map.mp hmem
    obtain ⟨t2, ht2, htn⟩ := hterm i hi
    rw [ht2] at hsome
    injection hsome with h2
    rw [← h2]
    exact htn
  have hcat : getNonFinalNextStateBatch
      ((draw.map fun i => ag.memory.memory.getD i none).reduceOption) =
      Except.error "cat of an empty tensor list" := by
    rw [getNonFinalNextStateBatch, hnil]
    rfl
  rw [DQNAgent.optimizeModel, if_neg (by omega), hsample]
  simp only [hall, if_pos, hcat]

theorem replay_push_eviction_witness :
    ((ReplayMemory.init ℕ 3).pushAll [0, 1, 2, 3, 4]).size = min 5 3 ∧
    ((ReplayMemory.init ℕ 3).pushAll [0, 1, 2, 3, 4]).position = 5 % 3 ∧
    ((ReplayMemory.init ℕ 3).pushAll [0, 1, 2, 3, 4]).memory.rotate
        ((ReplayMemory.init ℕ 3).pushAll [0, 1, 2, 3, 4]).position =
      (([0, 1, 2, 3, 4] : List ℕ).drop (5 - min 5 3)).map some ∧
    List.Perm ((ReplayMemory.init ℕ 3).pushAll [0, 1, 2, 3, 4]).memory
      ((([0, 1, 2, 3, 4] : List ℕ).drop (5 - min 5 3)).map some) :=
  replay_push_eviction.1 ℕ 3 [0, 1, 2, 3, 4] (by decide)

theorem sample_without_replacement_witness :
    ((ReplayMemory.init ℕ 3).pushAll [10, 20, 30]).sample 2 [2, 0] =
      some ([2, 0].map fun i =>
        ((ReplayMemory.init ℕ 3).pushAll [10, 20, 30]).memory.getD i none) ∧
    ([2, 0].map fun i =>
      ((ReplayMemory.init ℕ 3).pushAll [10, 20, 30]).memory.getD i none).length = 2 ∧
    List.Subperm
      ([2, 0].map fun i =>
        ((ReplayMemory.init ℕ 3).pushAll [10, 20, 30]).memory.getD i none)
      ((ReplayMemory.init ℕ 3).pushAll [10, 20, 30]).memory :=
  sample_without_replacement.2 ℕ ((ReplayMemory.init ℕ 3).pushAll [10, 20, 30])
    2 [2, 0] (by decide) (by decide) (by decide) (by decide)

/-- An agent whose memory holds exactly one terminal transition. -/
def allTerminalAgent : DQNAgent where
  Qfun := fun _ _ => [0]
  exploration := fun _ => 1
  nA := 1
  optimStep := fun p o _ => (p, o)
  gamma := 1/2
  batch_size := 1
  target_update := 5
  policyParams := [0]
  targetParams := [0]
  optState := []
  memory := (ReplayMemory.init Transition 2).push ⟨0, 0, none, 0⟩
  steps_done := 0
  episodes_done := 0
  episode_rewards := []
  episode_lengths := []
  state := some 0

theorem optimizeModel_all_terminal_errors_witness :
    allTerminalAgent.optimizeModel [0] =
      Except.error "cat of an empty tensor list" := by
  apply optimizeModel_all_terminal_errors
  · decide
  · intro i hi
    simp only [List.mem_singleton] at hi
    subst hi
    exact ⟨⟨0, 0, none, 0⟩, rfl, rfl⟩

/-- The per-step external inputs of one `trainOneEpisode` loop iteration: the
environment response `(obs_, r, done)` of `env.step` and the three RNG draws
consumed by the step (`random.random()`, `random.randrange`, and the
`random.sample` positions of the optimization step). -/
structure StepInput where
  obs : ℕ
  reward : ℚ
  done : Bool
  rfloat : ℚ
  rint : ℕ
  drawIdx : List ℕ

/-- One iteration of the `trainOneEpisode` loop (lines 209-246): select an
action (incrementing `steps_done`), take the environment response, accumulate
the reward, mark `next_state = None` when `done` or `step == max_episode_steps`,
push the transition, run `optimizeModel`, sync the Target Network when the
post-increment `steps_done` is a multiple of `target_update`, and either do the
episode-end bookkeeping and exit (`done` or `step == max_episode_steps - 1`) or
advance `self.state` to `next_state` (the checkpoint call at `save_freq` writes
files only and does not change the trainer state modelled here). -/
def DQNAgent.trainStep (ag : DQNAgent) (maxSteps step : ℕ) (rTotal : ℚ)
    (inp : StepInput) : Except String (DQNAgent × ℚ × Bool) :=
  match ag.state with
  | none => Except.error "NoneType state"
  | some s =>
    let sel := ag.selectAction s inp.rfloat inp.rint
    let next_state : Option ℕ :=
      if inp.done || step == maxSteps then none else some inp.obs
    let rTotal2 := rTotal + inp.reward
    let ag2 := { sel.1 with
      memory := sel.1.memory.push ⟨s, sel.2.1, next_state, inp.reward⟩ }
    match ag2.optimizeModel inp.drawIdx with
    | Except.error e => Except.error e
    | Except.ok ag3 =>
      let ag4 := if ag3.steps_done % ag3.target_update == 0
        then { ag3 with targetParams := ag3.policyParams } else ag3
      if inp.done || step == maxSteps - 1 then
        Except.ok ({ ag4 with
          episodes_done := ag4.episodes_done + 1
          episode_rewards := ag4.episode_rewards ++ [rTotal2]
          episode_lengths := ag4.episode_lengths ++ [step] }, rTotal2, true)
      else
        Except.ok ({ ag4 with state := next_state }, rTotal2, false)

/-- The `for step in trange(1, max_episode_steps + 1)` loop of
`trainOneEpisode`, driven by the list of per-step inputs: stop with the exit
step recorded when a step performs the episode-end bookkeeping, propagate any
raised error, and fall off the end otherwise. -/
def DQNAgent.runEpisode (ag : DQNAgent) (maxSteps step : ℕ) (rTotal : ℚ) :
    List StepInput → Except String (DQNAgent × Option ℕ)
  | [] => Except.ok (ag, none)
  | inp :: rest =>
    match ag.trainStep maxSteps step rTotal inp with
    | Except.error e => Except.error e
    | Except.ok (ag2, rT2, ended) =>
      if ended then Except.ok (ag2, some step)
      else ag2.runEpisode maxSteps (step + 1) rT2 rest

/-- `trainOneEpisode` (lines 196-246): reset gives the initial state (already
in `ag.state`), the cumulative reward starts at 0, and the loop runs from
step 1. -/
def DQNAgent.trainOneEpisode (ag : DQNAgent) (maxSteps : ℕ)
    (inputs : List StepInput) : Except String (DQNAgent × Option ℕ) :=
  ag.runEpisode maxSteps 1 0 inputs

theorem push_size (m : ReplayMemory α) (t : α) :
    (m.push t).memory.length =
      if m.memory.length < m.capacity then m.memory.length + 1
      else m.memory.length := by
  simp only [ReplayMemory.push, List.length_set]
  split <;> simp

theorem push_append (m : ReplayMemory α) (t : α)
    (hsz : m.memory.length < m.capacity) (hpos : m.position = m.memory.length) :
    (m.push t).memory = m.memory ++ [some t] ∧
    (m.push t).position = (m.memory.length + 1) % m.capacity ∧
    (m.push t).capacity = m.capacity := by
  simp only [ReplayMemory.push]
  rw [if_pos hsz, hpos]
  refine ⟨?_, ?_, ?_⟩
  · rw [List.set_append_right _ _ (le_refl _), Nat.sub_self]
    rfl
  · rfl
  · trivial

/-- `optimizeModel` only ever writes the Policy Network parameters and the
optimizer state: every other agent field is unchanged on success. -/
theorem optimizeModel_frame :
    ∀ (ag : DQNAgent) (draw : List ℕ) (ag2 : DQNAgent),
      ag.optimizeModel draw = Except.ok ag2 →
      ag2.steps_done = ag.steps_done ∧ ag2.targetParams = ag.targetParams ∧
      ag2.target_update = ag.target_update ∧ ag2.memory = ag.memory ∧
      ag2.state = ag.state ∧ ag2.episodes_done = ag.episodes_done ∧
      ag2.episode_rewards = ag.episode_rewards ∧
      ag2.episode_lengths = ag.episode_lengths ∧
      ag2.batch_size = ag.batch_size ∧ ag2.Qfun = ag.Qfun ∧
      ag2.exploration = ag.exploration ∧ ag2.nA = ag.nA ∧
      ag2.optimStep = ag.optimStep ∧ ag2.gamma = ag.gamma := by
  intro ag draw ag2 h
  rw [DQNAgent.optimizeModel] at h
  repeat' split at h
  any_goals exact Except.noConfusion h
  all_goals
    injection h with h2
    subst h2
    simp

/-- Elimination form for one successful loop iteration: it selects an action
on the current state, increments the step counter, pushes the transition with
the terminal marking `done or step == max_episode_steps`, runs `optimizeModel`
on the pushed memory, syncs the Target Network exactly when the post-increment
counter is a multiple of `target_update`, and performs the episode-end
bookkeeping exactly when `done or step == max_episode_steps - 1`. -/
theorem trainStep_ok_elim
    (ag : DQNAgent) (maxSteps step : ℕ) (rTotal : ℚ) (inp : StepInput)
    (agf : DQNAgent) (rT2 : ℚ) (ended : Bool)
    (h : ag.trainStep maxSteps step rTotal inp = Except.ok (agf, rT2, ended)) :
    ∃ (s a : ℕ) (agMid ag3 : DQNAgent),
      ag.state = some s ∧
      a = (ag.selectAction s inp.rfloat inp.rint).2.1 ∧
      agMid.steps_done = ag.steps_done + 1 ∧
      agMid.policyParams = ag.policyParams ∧
      agMid.targetParams = ag.targetParams ∧
      agMid.optState = ag.optState ∧
      agMid.target_update = ag.target_update ∧
      agMid.batch_size = ag.batch_size ∧
      agMid.episodes_done = ag.episodes_done ∧
      agMid.episode_rewards = ag.episode_rewards ∧
      agMid.episode_lengths = ag.episode_lengths ∧
      agMid.memory = ag.memory.push ⟨s, a,
        (if inp.done || step == maxSteps then none else some inp.obs),
        inp.reward⟩ ∧
      agMid.optimizeModel inp.drawIdx = Except.ok ag3 ∧
      rT2 = rTotal + inp.reward ∧
      ended = (inp.done || step == maxSteps - 1) ∧
      agf.steps_done = ag3.steps_done ∧
      agf.policyParams = ag3.policyParams ∧
      agf.optState = ag3.optState ∧
      agf.memory = ag3.memory ∧
      agf.targetParams = (if ag3.steps_done % ag3.target_update == 0
        then ag3.policyParams else ag3.targetParams) ∧
      (ended = true →
        agf.episodes_done = ag3.episodes_done + 1 ∧
        agf.episode_rewards = ag3.episode_rewards ++ [rTotal + inp.reward] ∧
        agf.episode_lengths = ag3.episode_lengths ++ [step] ∧
        agf.state = ag3.state) ∧
      (ended = false →
        agf.episodes_done = ag3.episodes_done ∧
        agf.episode_rewards = ag3.episode_rewards ∧
        agf.episode_lengths = ag3.episode_lengths ∧
        agf.state = (if inp.done || step == maxSteps then none
          else some inp.obs)) := by
  simp only [DQNAgent.trainStep] at h
  split at h
  · exact Except.noConfusion h
  · rename_i s heq
    split at h
    · exact Except.noConfusion h
    · rename_i ag3 heq2
      cases hB : ag3.steps_done % ag3.target_update == 0 with
      | true =>
        simp only [hB, if_true] at h
        split at h
        · rename_i hc
          injection h with h2
          injection h2 with hagf h3
          injection h3 with hrT hend
          subst hagf
          subst hrT
          subst hend
          refine ⟨s, (ag.selectAction s inp.rfloat inp.rint).2.1,
            { (ag.selectAction s inp.rfloat inp.rint).1 with
              memory := (ag.selectAction s inp.rfloat inp.rint).1.memory.push
                ⟨s, (ag.selectAction s inp.rfloat inp.rint).2.1,
                  (if inp.done || step == maxSteps then none else some inp.obs),
                  inp.reward⟩ }, ag3, heq, rfl, rfl, rfl, rfl, rfl, rfl, rfl, rfl,
            rfl, rfl, rfl, heq2, rfl, hc.symm, rfl, rfl, rfl, rfl, ?_, ?_, ?_⟩
          · rw [hB]
            simp
          · intro _
            exact ⟨rfl, rfl, rfl, rfl⟩
          · intro hfalse
            exact absurd hfalse (by simp)
        · rename_i hc
          injection h with h2
          injection h2 with hagf h3
          injection h3 with hrT hend
          subst hagf
          subst hrT
          subst hend
          refine ⟨s, (ag.selectAction s inp.rfloat inp.rint).2.1,
            { (ag.selectAction s inp.rfloat inp.rint).1 with
              memory := (ag.selectAction s inp.rfloat inp.rint).1.memory.push
                ⟨s, (ag.selectAction s inp.rfloat inp.rint).2.1,
                  (if inp.done || step == maxSteps then none else some inp.obs),
                  inp.reward⟩ }, ag3, heq, rfl, rfl, rfl, rfl, rfl, rfl, rfl, rfl,
            rfl, rfl, rfl, heq2, rfl, ?_, rfl, rfl, rfl, rfl, ?_, ?_, ?_⟩
          · simp only [Bool.not_eq_true] at hc
            exact hc.symm
          · rw [hB]
            simp
          · intro htrue
            exact absurd htrue (by simp)
          · intro _
            exact ⟨rfl, rfl, rfl, rfl⟩
      | false =>
        simp only [hB, Bool.false_eq_true, if_false] at h
        split at h
        · rename_i hc
          injection h with h2
          injection h2 with hagf h3
          injection h3 with hrT hend
          subst hagf
          subst hrT
          subst hend
          refine ⟨s, (ag.selectAction s inp.rfloat inp.rint).2.1,
            { (ag.selectAction s inp.rfloat inp.rint).1 with
              memory := (ag.selectAction s inp.rfloat inp.rint).1.memory.push
                ⟨s, (ag.selectAction s inp.rfloat inp.rint).2.1,
                  (if inp.done || step == maxSteps then none else some inp.obs),
                  inp.reward⟩ }, ag3, heq, rfl, rfl, rfl, rfl, rfl, rfl, rfl, rfl,
            rfl, rfl, rfl, heq2, rfl, hc.symm, rfl, rfl, rfl, rfl, ?_, ?_, ?_⟩
          · rw [hB]
            simp
          · intro _
            exact ⟨rfl, rfl, rfl, rfl⟩
          · intro hfalse
            exact absurd hfalse (by simp)
        · rename_i hc
          injection h with h2
          injection h2 with hagf h3
          injection h3 with hrT hend
          subst hagf
          subst hrT
          subst hend
          refine ⟨s, (ag.selectAction s inp.rfloat inp.rint).2.1,
            { (ag.selectAction s inp.rfloat inp.rint).1 with
              memory := (ag.selectAction s inp.rfloat inp.rint).1.memory.push
                ⟨s, (ag.selectAction s inp.rfloat inp.rint).2.1,
                  (if inp.done || step == maxSteps then none else some inp.obs),
                  inp.reward⟩ }, ag3, heq, rfl, rfl, rfl, rfl, rfl, rfl, rfl, rfl,
            rfl, rfl, rfl, heq2, rfl, ?_, rfl, rfl, rfl, rfl, ?_, ?_, ?_⟩
          · simp only [Bool.not_eq_true] at hc
            exact hc.symm
          · rw [hB]
            simp
          · intro htrue
            exact absurd htrue (by simp)
          · intro _
            exact ⟨rfl, rfl, rfl, rfl⟩

/-- Claim C2: `optimizeModel` never touches the Target Network, and one loop
iteration copies the Policy Network parameter set into the Target Network
exactly when the post-increment `steps_done` is a multiple of
`target_update_frequency`, the check running after the optimization step (the
copied set is the post-optimization Policy parameters); at every other step
the Target Network parameters are unchanged verbatim.  (`target_update = 0`
is excluded: Python raises `ZeroDivisionError` on `% 0`.) -/
theorem target_sync_cadence :
    (∀ (b : DQNAgent) (draw : List ℕ) (b2 : DQNAgent),
      b.optimizeModel draw = Except.ok b2 →
      b2.targetParams = b.targetParams ∧ b2.steps_done = b.steps_done ∧
      b2.target_update = b.target_update) ∧
    (∀ (ag : DQNAgent) (maxSteps step : ℕ) (rTotal : ℚ) (inp : StepInput)
       (agf : DQNAgent) (rT2 : ℚ) (ended : Bool),
      0 < ag.target_update →
      ag.trainStep maxSteps step rTotal inp = Except.ok (agf, rT2, ended) →
      agf.steps_done = ag.steps_done + 1 ∧
      ((ag.steps_done + 1) % ag.target_update ≠ 0 →
        agf.targetParams = ag.targetParams) ∧
      ((ag.steps_done + 1) % ag.target_update = 0 →
        ∃ (agMid ag3 : DQNAgent),
          agMid.optimizeModel inp.drawIdx = Except.ok ag3 ∧
          agMid.steps_done = ag.steps_done + 1 ∧
          agMid.policyParams = ag.policyParams ∧
          agMid.targetParams = ag.targetParams ∧
          agf.targetParams = ag3.policyParams ∧
          agf.policyParams = ag3.policyParams)) := by
  constructor
  · intro b draw b2 h
    obtain ⟨h1, h2, h3, _⟩ := optimizeModel_frame b draw b2 h
    exact ⟨h2, h1, h3⟩
  · intro ag maxSteps step rTotal inp agf rT2 ended htu h
    obtain ⟨s, a, agMid, ag3, hst, ha, hmid_steps, hmid_pol, hmid_tar, hmid_opt,
      hmid_tu, hmid_bs, hmid_ep, hmid_rew, hmid_len, hmid_mem, hOk, hrT, hend,
      hf_steps, hf_pol, hf_opt, hf_mem, hf_tar, hexit, hnoexit⟩ :=
      trainStep_ok_elim ag maxSteps step rTotal inp agf rT2 ended h
    obtain ⟨hfr_steps, hfr_tar, hfr_tu, _⟩ :=
      optimizeModel_frame agMid inp.drawIdx ag3 hOk
    have hsteps3 : ag3.steps_done = ag.steps_done + 1 := by
      rw [hfr_steps, hmid_steps]
    have htu3 : ag3.target_update = ag.target_update := by
      rw [hfr_tu, hmid_tu]
    refine ⟨by rw [hf_steps, hsteps3], ?_, ?_⟩
    · intro hmod
      have hcond : (ag3.steps_done % ag3.target_update == 0) = false := by
        rw [hsteps3, htu3]
        exact beq_eq_false_iff_ne.mpr hmod
      rw [hf_tar, hcond]
      simp only [Bool.false_eq_true, if_false]
      rw [hfr_tar, hmid_tar]
    · intro hmod
      have hcond : (ag3.steps_done % ag3.target_update == 0) = true := by
        rw [hsteps3, htu3]
        simp [hmod]
      refine ⟨agMid, ag3, hOk, hmid_steps, hmid_pol, hmid_tar, ?_, hf_pol⟩
      rw [hf_tar, hcond]
      simp

/-- An agent for concrete loop iterations: constant Q-row `[1]`, zero
exploration, `target_update = 1` so every step syncs, and a batch size large
enough that the optimization step is a guard no-op. -/
def loopAgent : DQNAgent where
  Qfun := fun _ _ => [1]
  exploration := fun _ => 0
  nA := 1
  optimStep := fun p o _ => (p, o)
  gamma := 1
  batch_size := 10
  target_update := 1
  policyParams := [5]
  targetParams := [7]
  optState := []
  memory := ReplayMemory.init Transition 16
  steps_done := 0
  episodes_done := 0
  episode_rewards := []
  episode_lengths := []
  state := some 3

theorem target_sync_cadence_witness :
    ({ loopAgent with
        steps_done := 1
        memory := loopAgent.memory.push ⟨3, 0, some 4, 0⟩
        targetParams := loopAgent.policyParams
        state := some 4 } : DQNAgent).steps_done = loopAgent.steps_done + 1 := by
  have h : loopAgent.trainStep 5 1 0 ⟨4, 0, false, 1, 0, []⟩ = Except.ok
      ({ loopAgent with
        steps_done := 1
        memory := loopAgent.memory.push ⟨3, 0, some 4, 0⟩
        targetParams := loopAgent.policyParams
        state := some 4 }, 0 + 0, false) := rfl
  exact (target_sync_cadence.2 loopAgent 5 1 0 ⟨4, 0, false, 1, 0, []⟩ _ (0 + 0)
    false (by decide) h).1

/-- Constructive form of one loop iteration when the optimization step is a
guard no-op (memory still smaller than the batch size after the push): the
step always succeeds, returns the accumulated reward and the exit flag
`done or step == max_episode_steps - 1`, and its bookkeeping is as below. -/
theorem trainStep_guard_ok (ag : DQNAgent) (maxSteps step : ℕ) (rTotal : ℚ)
    (inp : StepInput) (s : ℕ) (hst : ag.state = some s)
    (hbs : ag.memory.size + 1 < ag.batch_size) :
    ∃ agf : DQNAgent, ag.trainStep maxSteps step rTotal inp =
        Except.ok (agf, rTotal + inp.reward, (inp.done || step == maxSteps - 1)) ∧
      agf.memory = ag.memory.push ⟨s, (ag.selectAction s inp.rfloat inp.rint).2.1,
        (if inp.done || step == maxSteps then none else some inp.obs),
        inp.reward⟩ ∧
      agf.batch_size = ag.batch_size ∧
      agf.episodes_done = (if inp.done || step == maxSteps - 1
        then ag.episodes_done + 1 else ag.episodes_done) ∧
      agf.episode_lengths = (if inp.done || step == maxSteps - 1
        then ag.episode_lengths ++ [step] else ag.episode_lengths) ∧
      agf.state = (if inp.done || step == maxSteps - 1 then some s
        else (if inp.done || step == maxSteps then none else some inp.obs)) := by
  have hsz : ({ (ag.selectAction s inp.rfloat inp.rint).1 with
      memory := (ag.selectAction s inp.rfloat inp.rint).1.memory.push
        ⟨s, (ag.selectAction s inp.rfloat inp.rint).2.1,
          (if inp.done || step == maxSteps then none else some inp.obs),
          inp.reward⟩ } : DQNAgent).memory.size <
      ({ (ag.selectAction s inp.rfloat inp.rint).1 with
      memory := (ag.selectAction s inp.rfloat inp.rint).1.memory.push
        ⟨s, (ag.selectAction s inp.rfloat inp.rint).2.1,
          (if inp.done || step == maxSteps then none else some inp.obs),
          inp.reward⟩ } : DQNAgent).batch_size := by
    show (ag.memory.push ⟨s, (ag.selectAction s inp.rfloat inp.rint).2.1,
      (if inp.done || step == maxSteps then none else some inp.obs),
      inp.reward⟩).memory.length < ag.batch_size
    rw [push_size]
    simp only [ReplayMemory.size] at hbs
    split <;> omega
  have hOk := optimizeModel_guard_noop _ inp.drawIdx hsz
  simp only [DQNAgent.trainStep, hst]
  simp only [hOk]
  cases hexit : (inp.done || step == maxSteps - 1) with
  | true =>
    refine ⟨_, rfl, ?_, ?_, ?_, ?_, ?_⟩
    · first | rfl | (split <;> rfl)
    · first | rfl | (split <;> rfl)
    · first | rfl | (split <;> rfl)
    · first | rfl | (split <;> rfl)
    · first | exact hst | (split <;> exact hst)
  | false =>
    refine ⟨_, rfl, ?_, ?_, ?_, ?_, ?_⟩
    · first | rfl | (split <;> rfl)
    · first | rfl | (split <;> rfl)
    · first | rfl | (split <;> rfl)
    · first | rfl | (split <;> rfl)
    · first | rfl | (split <;> rfl)

/-- Running the loop from `step` with no `done` flag ever set, enough inputs,
and a memory that stays both below capacity and below the batch size: the
episode performs its end-of-episode bookkeeping exactly at step
`max_episode_steps - 1`, and the last transition pushed is non-terminal. -/
theorem runEpisode_no_done (maxSteps : ℕ) (h2 : 2 ≤ maxSteps) :
    ∀ (inputs : List StepInput) (step : ℕ) (ag : DQNAgent) (rTotal : ℚ),
      1 ≤ step → step ≤ maxSteps - 1 →
      maxSteps ≤ step + inputs.length →
      (∀ i ∈ inputs, i.done = false) →
      ag.state.isSome = true →
      ag.memory.size + (maxSteps - step) ≤ ag.memory.capacity →
      ag.memory.size + (maxSteps - step) < ag.batch_size →
      ag.memory.position = ag.memory.size →
      ∃ agf, ag.runEpisode maxSteps step rTotal inputs
          = Except.ok (agf, some (maxSteps - 1)) ∧
        agf.episodes_done = ag.episodes_done + 1 ∧
        agf.episode_lengths = ag.episode_lengths ++ [maxSteps - 1] ∧
        ∃ t, agf.memory.memory.getLast? = some (some t) ∧
          t.next_state.isSome = true := by
  intro inputs
  induction inputs with
  | nil =>
    intro step ag rTotal h1 hle hcov hdone hst hcap hbs hpos
    simp only [List.length_nil] at hcov
    omega
  | cons inp rest ih =>
    intro step ag rTotal h1 hle hcov hdone hst hcap hbs hpos
    obtain ⟨s, hs⟩ := Option.isSome_iff_exists.mp hst
    have hdone0 : inp.done = false := hdone inp (by simp)
    have hgap : 1 ≤ maxSteps - step := by omega
    have hbs1 : ag.memory.size + 1 < ag.batch_size := by omega
    obtain ⟨agf1, hstep, hmem1, hbs2, hep1, hlen1, hstate1⟩ :=
      trainStep_guard_ok ag maxSteps step rTotal inp s hs hbs1
    have hszlt : ag.memory.memory.length < ag.memory.capacity := by
      simp only [ReplayMemory.size] at hcap
      omega
    obtain ⟨hpm, hpp, hpc⟩ := push_append ag.memory
      (⟨s, (ag.selectAction s inp.rfloat inp.rint).2.1,
        (if inp.done || step == maxSteps then none else some inp.obs),
        inp.reward⟩)
      hszlt (by simpa [ReplayMemory.size] using hpos)
    have hnotmax : (step == maxSteps) = false := by
      simp only [beq_eq_false_iff_ne]
      omega
    by_cases hstepEq : step = maxSteps - 1
    · -- this is the exit step
      subst hstepEq
      have hc : (inp.done || (maxSteps - 1) == maxSteps - 1) = true := by
        simp
      refine ⟨agf1, ?_, ?_, ?_, ?_⟩
      · simp only [DQNAgent.runEpisode, hstep, hc, if_true]
      · rw [hep1, if_pos hc]
      · rw [hlen1, if_pos hc]
      · refine ⟨⟨s, (ag.selectAction s inp.rfloat inp.rint).2.1,
          some inp.obs, inp.reward⟩, ?_, rfl⟩
        rw [hmem1]
        have hns : (if inp.done || (maxSteps - 1) == maxSteps then none
            else some inp.obs) = some inp.obs := by
          rw [if_neg]
          simp only [hdone0, Bool.false_or, hnotmax]
          simp
        rw [hns] at hpm ⊢
        rw [hpm]
        exact List.getLast?_concat _
    · -- keep stepping
      have hc : (inp.done || step == maxSteps - 1) = false := by
        simp only [hdone0, Bool.false_or, beq_eq_false_iff_ne]
        omega
      have hns : (if inp.done || step == maxSteps then none
          else some inp.obs) = some inp.obs := by
        rw [if_neg]
        simp only [hdone0, Bool.false_or, hnotmax]
        simp
      have hst1 : agf1.state.isSome = true := by
        rw [hstate1, if_neg (by simp [hc]), hns]
        rfl
      have hsize1 : agf1.memory.memory.length = ag.memory.memory.length + 1 := by
        rw [hmem1, hpm]
        simp
      have hcap1 : agf1.memory.capacity = ag.memory.capacity := by
        rw [hmem1, hpc]
      have hpos1 : agf1.memory.position = agf1.memory.memory.length := by
        rw [hsize1, hmem1, hpp]
        exact Nat.mod_eq_of_lt (by
          simp only [ReplayMemory.size] at hcap
          omega)
      obtain ⟨agf, hrun, hep, hlen, hlast⟩ := ih (step + 1) agf1
        (rTotal + inp.reward) (by omega) (by omega)
        (by simp only [List.length_cons] at hcov; omega)
        (fun i hi => hdone i (List.mem_cons_of_mem _ hi))
        hst1
        (by simp only [ReplayMemory.size] at hcap ⊢
            rw [hsize1, hcap1]
            omega)
        (by simp only [ReplayMemory.size] at hbs ⊢
            rw [hsize1, hbs2]
            omega)
        (by rw [hpos1]
            rfl)
      refine ⟨agf, ?_, ?_, ?_, hlast⟩
      · simp only [DQNAgent.runEpisode, hstep, hc, if_false]
        exact hrun
      · rw [hep, hep1, if_neg (by simp [hc])]
      · rw [hlen, hlen1, if_neg (by simp [hc])]

/-- Claim C4: in every successful loop iteration the pushed transition's
`next_state` is `None` exactly when `done` holds or `step == max_episode_steps`,
while the episode-end bookkeeping runs and the loop exits exactly when `done`
holds or `step == max_episode_steps - 1`; consequently an episode that reaches
the step limit with `done` never set performs its bookkeeping at step
`max_episode_steps - 1` and its final pushed transition is non-terminal. -/
theorem episode_boundary_asymmetry :
    (∀ (ag : DQNAgent) (maxSteps step : ℕ) (rTotal : ℚ) (inp : StepInput)
       (agf : DQNAgent) (rT2 : ℚ) (ended : Bool),
      ag.trainStep maxSteps step rTotal inp = Except.ok (agf, rT2, ended) →
      (∃ (s a : ℕ) (ns : Option ℕ), ag.state = some s ∧
        agf.memory = ag.memory.push ⟨s, a, ns, inp.reward⟩ ∧
        (ns = none ↔ (inp.done = true ∨ step = maxSteps))) ∧
      (ended = true ↔ (inp.done = true ∨ step = maxSteps - 1)) ∧
      (ended = true → agf.episodes_done = ag.episodes_done + 1 ∧
        agf.episode_lengths = ag.episode_lengths ++ [step]) ∧
      (ended = false → agf.episodes_done = ag.episodes_done ∧
        agf.episode_lengths = ag.episode_lengths)) ∧
    (∀ (ag : DQNAgent) (maxSteps : ℕ) (inputs : List StepInput),
      2 ≤ maxSteps →
      inputs.length = maxSteps →
      (∀ i ∈ inputs, i.done = false) →
      ag.state.isSome = true →
      ag.memory.size + maxSteps ≤ ag.memory.capacity →
      ag.memory.size + maxSteps < ag.batch_size →
      ag.memory.position = ag.memory.size →
      ∃ agf, ag.trainOneEpisode maxSteps inputs
          = Except.ok (agf, some (maxSteps - 1)) ∧
        agf.episodes_done = ag.episodes_done + 1 ∧
        agf.episode_lengths = ag.episode_lengths ++ [maxSteps - 1] ∧
        ∃ t, agf.memory.memory.getLast? = some (some t) ∧
          t.next_state.isSome = true) := by
  constructor
  · intro ag maxSteps step rTotal inp agf rT2 ended h
    obtain ⟨s, a, agMid, ag3, hst, ha, hmid_steps, hmid_pol, hmid_tar, hmid_opt,
      hmid_tu, hmid_bs, hmid_ep, hmid_rew, hmid_len, hmid_mem, hOk, hrT, hend,
      hf_steps, hf_pol, hf_opt, hf_mem, hf_tar, hexit, hnoexit⟩ :=
      trainStep_ok_elim ag maxSteps step rTotal inp agf rT2 ended h
    obtain ⟨_, _, _, hfr_mem, _, hfr_ep, hfr_rew, hfr_len, _⟩ :=
      optimizeModel_frame agMid inp.drawIdx ag3 hOk
    refine ⟨?_, ?_, ?_, ?_⟩
    · refine ⟨s, a, (if inp.done || step == maxSteps then none else some inp.obs),
        hst, ?_, ?_⟩
      · rw [hf_mem, hfr_mem, hmid_mem]
      · split <;> simp_all
    · rw [hend]
      simp
    · intro he
      obtain ⟨he1, _, he3, _⟩ := hexit he
      constructor
      · rw [he1, hfr_ep, hmid_ep]
      · rw [he3, hfr_len, hmid_len]
    · intro he
      obtain ⟨he1, _, he3, _⟩ := hnoexit he
      constructor
      · rw [he1, hfr_ep, hmid_ep]
      · rw [he3, hfr_len, hmid_len]
  · intro ag maxSteps inputs h2 hlen hdone hst hcap hbs hpos
    have := runEpisode_no_done maxSteps h2 inputs 1 ag 0
      (le_refl 1) (by omega) (by omega) hdone hst (by omega) (by omega) hpos
    simpa [DQNAgent.trainOneEpisode] using this

theorem episode_boundary_asymmetry_witness :
    ({ loopAgent with
        steps_done := 1
        memory := loopAgent.memory.push ⟨3, 0, none, 0⟩
        targetParams := loopAgent.policyParams
        episodes_done := loopAgent.episodes_done + 1
        episode_rewards := loopAgent.episode_rewards ++ [0 + 0]
        episode_lengths := loopAgent.episode_lengths ++ [1] } :
      DQNAgent).episodes_done = loopAgent.episodes_done + 1 := by
  have h : loopAgent.trainStep 5 1 0 ⟨9, 0, true, 1, 0, []⟩ = Except.ok
      ({ loopAgent with
        steps_done := 1
        memory := loopAgent.memory.push ⟨3, 0, none, 0⟩
        targetParams := loopAgent.policyParams
        episodes_done := loopAgent.episodes_done + 1
        episode_rewards := loopAgent.episode_rewards ++ [0 + 0]
        episode_lengths := loopAgent.episode_lengths ++ [1] }, 0 + 0, true) := rfl
  exact ((episode_boundary_asymmetry.1 loopAgent 5 1 0 ⟨9, 0, true, 1, 0, []⟩
    _ (0 + 0) true h).2.2.1 rfl).1

/-- The trainer-state record written by `getSavingState` (lines 260-270). -/
structure Checkpoint where
  episode : ℕ
  steps : ℕ
  policy_state_dict : List ℚ
  target_state_dict : List ℚ
  optimizer_state_dict : List ℚ
  episode_rewards : List ℚ
  episode_lengths : List ℕ
deriving DecidableEq, Repr

/-- `getSavingState` (lines 260-270). -/
def DQNAgent.getSavingState (ag : DQNAgent) : Checkpoint :=
  ⟨ag.episodes_done, ag.steps_done, ag.policyParams, ag.targetParams,
    ag.optState, ag.episode_rewards, ag.episode_lengths⟩

/-- `saveCheckpoint` (lines 272-285): two artifacts under one timestamp, the
trainer-state record and the whole replay memory. -/
def DQNAgent.saveCheckpoint (ag : DQNAgent) :
    Checkpoint × ReplayMemory Transition :=
  (ag.getSavingState, ag.memory)

/-- `loadCheckpoint` (lines 287-321): with `data_only` only the reward and
length histories are restored; otherwise the counters and histories are
restored, the Policy Network loads `policy_state_dict`, the Target Network
also loads `policy_state_dict` (line 312, not the saved target snapshot), and
the optimizer is reconstructed and then overwritten with its saved state (the
saved state wins, so only the net effect is modelled); with `load_memory` the
replay memory artifact is restored as well. -/
def DQNAgent.loadCheckpoint (ag : DQNAgent) (ck : Checkpoint)
    (memBlob : ReplayMemory Transition) (data_only load_memory : Bool) :
    DQNAgent :=
  if data_only then
    { ag with
      episode_rewards := ck.episode_rewards
      episode_lengths := ck.episode_lengths }
  else
    let ag1 := { ag with
      episodes_done := ck.episode
      steps_done := ck.steps
      episode_rewards := ck.episode_rewards
      episode_lengths := ck.episode_lengths
      policyParams := ck.policy_state_dict
      targetParams := ck.policy_state_dict
      optState := ck.optimizer_state_dict }
    if load_memory then { ag1 with memory := memBlob } else ag1

/-- Counterexample to claim C3 as stated: `loadCheckpoint` loads
`policy_state_dict` into the Target Network (line 312), so for an agent whose
Target parameters `[7]` differ from its Policy parameters `[5]`, the
immediate save-then-load round trip does not reproduce the Target Network
parameters bit-identically. -/
theorem checkpoint_roundtrip_counterexample :
    (loopAgent.loadCheckpoint loopAgent.saveCheckpoint.1
      loopAgent.saveCheckpoint.2 false true).targetParams ≠
      loopAgent.targetParams := by
  decide

/-- Claim C3 (amended): the immediate same-timestamp round trip
(`data_only = false`) reproduces `steps_done`, `episodes_done`, the
reward/length histories, the replay memory, and bit-identical Policy Network
parameters; the Target Network is re-derived from the saved Policy parameters
(line 312), so after the load it equals the saved Policy parameter set, and it
is bit-identical to the pre-save Target parameters exactly when Target and
Policy coincided at save time. -/
theorem checkpoint_roundtrip_amended :
    ∀ ag : DQNAgent,
      (ag.loadCheckpoint ag.saveCheckpoint.1 ag.saveCheckpoint.2 false
        true).steps_done = ag.steps_done ∧
      (ag.loadCheckpoint ag.saveCheckpoint.1 ag.saveCheckpoint.2 false
        true).episodes_done = ag.episodes_done ∧
      (ag.loadCheckpoint ag.saveCheckpoint.1 ag.saveCheckpoint.2 false
        true).policyParams = ag.policyParams ∧
      (ag.loadCheckpoint ag.saveCheckpoint.1 ag.saveCheckpoint.2 false
        true).episode_rewards = ag.episode_rewards ∧
      (ag.loadCheckpoint ag.saveCheckpoint.1 ag.saveCheckpoint.2 false
        true).episode_lengths = ag.episode_lengths ∧
      (ag.loadCheckpoint ag.saveCheckpoint.1 ag.saveCheckpoint.2 false
        true).memory = ag.memory ∧
      (ag.loadCheckpoint ag.saveCheckpoint.1 ag.saveCheckpoint.2 false
        true).targetParams = ag.policyParams ∧
      ((ag.loadCheckpoint ag.saveCheckpoint.1 ag.saveCheckpoint.2 false
        true).targetParams = ag.targetParams ↔
        ag.targetParams = ag.policyParams) := by
  intro ag
  refine ⟨rfl, rfl, rfl, rfl, rfl, rfl, rfl, ?_⟩
  exact eq_comm
